import Mathlib

/-!
Verification of `lib/oid_registry.c`: the ASN.1 OID registry.

The C file provides four operations over build-time constant tables:
`look_up_OID` (hash-assisted binary search of the search index),
`lookup_oid_digest_info` (static digest-algorithm mapping),
`sprint_oid` (binary OID to dotted-decimal text) and `sprint_OID`
(render a registry symbol by resolving its canonical bytes first).

The generated data tables (`oid_registry_data.c`) are an external input
with a stated shape, so the registry is modelled as a structure of
abstract index functions; theorems are parametric in a table satisfying
the data-model invariants.  Machine integers are modelled as `Nat` with
explicit reductions modulo `2 ^ 32` (C `unsigned`) and `2 ^ 64`
(C `unsigned long` / `size_t`) where the C arithmetic can wrap.
-/

/-- `2 ^ 32`, the modulus of C `unsigned` arithmetic. -/
def U32 : Nat := 2 ^ 32

/-- `2 ^ 64`, the modulus of C `unsigned long` / `size_t` arithmetic. -/
def U64 : Nat := 2 ^ 64

/-! ## The registry tables

`oid_search_table`, `oid_index` and `oid_data` from the generated
`oid_registry_data.c`, modelled abstractly: `N` is `OID__NR`,
`searchHash j` / `searchOid j` are the fields of `oid_search_table[j]`,
`index` is `oid_index`, and `data` is `oid_data`. -/

structure OIDRegistry where
  N : Nat
  searchHash : Nat → Nat
  searchOid : Nat → Nat
  index : Nat → Nat
  data : Nat → Nat

/-- `oid_index[oid + 1] - oid_index[oid]`, the length of a symbol's
canonical encoding. -/
def canonLen (R : OIDRegistry) (oid : Nat) : Nat :=
  R.index (oid + 1) - R.index oid

/-- The canonical encoded bytes of a symbol: the Blob range
`[oid_index[oid], oid_index[oid + 1])` of `oid_data`. -/
def canonBytes (R : OIDRegistry) (oid : Nat) : List Nat :=
  (List.range (canonLen R oid)).map (fun l => R.data (R.index oid + l))

/-! ## The hash of `look_up_OID`

C code: `hash = datasize - 1; for (i = 0; i < datasize; i++) hash +=
octets[i] * 33; hash = (hash >> 24) ^ (hash >> 16) ^ (hash >> 8) ^ hash;
hash &= 0xff;` with `hash : unsigned` (32-bit, wrapping).  The fuel
argument makes the index loop structurally recursive; it is run with
fuel `octets.length`, enough for the whole loop. -/

def hashLoop (octets : List Nat) : Nat → Nat → Nat → Nat
  | 0, hash, _ => hash
  | fuel + 1, hash, i =>
    if i < octets.length then
      hashLoop octets fuel ((hash + octets.getD i 0 * 33) % U32) (i + 1)
    else hash

/-- The complete hash computation of `look_up_OID`.  The seed
`datasize - 1` is computed in C on a 64-bit `size_t` and truncated to
32 bits by the assignment to `hash`; on naturals this is
`(datasize + (U32 - 1)) % U32` (for `datasize = 0` the C value is
`0xffffffff`). -/
def oidHash (octets : List Nat) : Nat :=
  let seed := (octets.length + (U32 - 1)) % U32
  let h := hashLoop octets octets.length seed 0
  ((h >>> 24) ^^^ (h >>> 16) ^^^ (h >>> 8) ^^^ h) &&& 0xff

/-- The hash as the specification words it: seed `length - 1` with
32-bit wraparound, then for each byte `b`, `seed = seed + b * 33`
wrapping, then XOR-fold the four byte lanes and mask to 8 bits. -/
def hashSpec (octets : List Nat) : Nat :=
  let seed := octets.foldl (fun h b => (h + b * 33) % U32)
    ((octets.length + (U32 - 1)) % U32)
  ((seed >>> 24) ^^^ (seed >>> 16) ^^^ (seed >>> 8) ^^^ seed) &&& 0xff

/-! ## The binary search of `look_up_OID` -/

/-- Outcome of one probe of the binary search: move `k` down to `j`,
move `i` up to `j + 1`, or return the probed symbol. -/
inductive Dir where
  | left
  | right
  | hit
deriving DecidableEq

/-- The tail-end-first byte comparison of `look_up_OID`:
`while (len > 0) { a = oid_data[oid_index[oid] + --len]; b = octets[len];
if (a > b) ...k = j...; if (a < b) ...i = j + 1...; }`. -/
def revCmpDir (R : OIDRegistry) (octets : List Nat) (base : Nat) : Nat → Dir
  | 0 => .hit
  | len + 1 =>
    let a := R.data (base + len)
    let b := octets.getD len 0
    if a > b then .left
    else if a < b then .right
    else revCmpDir R octets base len

/-- One probe of the binary search at position `j`: compare the stored
hash byte, then the canonical length against `datasize`, then the bytes
in reverse. -/
def probeDir (R : OIDRegistry) (octets : List Nat) (hash j : Nat) : Dir :=
  let xhash := R.searchHash j
  if xhash > hash then .left
  else if xhash < hash then .right
  else
    let oid := R.searchOid j
    let len := canonLen R oid
    if len > octets.length then .left
    else if len < octets.length then .right
    else revCmpDir R octets (R.index oid) len

/-- The `while (i < k)` binary-search loop of `look_up_OID`.  The fuel
argument makes the loop structurally recursive; `k - i` shrinks by at
least one per iteration, so running it with fuel `R.N` (from `i = 0`,
`k = OID__NR`) never exhausts the fuel. -/
def lookLoop (R : OIDRegistry) (octets : List Nat) (hash : Nat) :
    Nat → Nat → Nat → Nat
  | 0, _, _ => R.N
  | fuel + 1, i, k =>
    if i < k then
      match probeDir R octets hash ((i + k) / 2) with
      | .left => lookLoop R octets hash fuel i ((i + k) / 2)
      | .right => lookLoop R octets hash fuel ((i + k) / 2 + 1) k
      | .hit => R.searchOid ((i + k) / 2)
    else R.N

/-- `look_up_OID(data, datasize)`: hash the input and binary-search the
registry; returns the symbol, or `R.N` (`OID__NR`, the NOT_FOUND
sentinel) on a miss. -/
def look_up_OID (R : OIDRegistry) (octets : List Nat) : Nat :=
  lookLoop R octets (oidHash octets) R.N 0 R.N

/-! ## Keys for stating the search-index sort order

The search index is sorted ascending by hash byte, then by canonical
length, then by the canonical bytes compared from the last byte
backward.  `keyCmp` is that triple comparison. -/

/-- Reverse-lexicographic comparison of the first `len` positions of two
byte sequences, highest index first (the order used on a hash and
length tie). -/
def rlistCmp (a b : List Nat) : Nat → Ordering
  | 0 => .eq
  | len + 1 =>
    if a.getD len 0 > b.getD len 0 then .gt
    else if a.getD len 0 < b.getD len 0 then .lt
    else rlistCmp a b len

/-- The triple search-order comparison: hash byte, then length, then
reverse byte order (the sequences are compared at equal length). -/
def keyCmp : Nat × Nat × List Nat → Nat × Nat × List Nat → Ordering
  | (h1, n1, l1), (h2, n2, l2) =>
    if h1 < h2 then .lt
    else if h2 < h1 then .gt
    else if n1 < n2 then .lt
    else if n2 < n1 then .gt
    else rlistCmp l1 l2 n1

/-- The sort key of search-table entry `j`. -/
def entryKey (R : OIDRegistry) (j : Nat) : Nat × Nat × List Nat :=
  (R.searchHash j, canonLen R (R.searchOid j), canonBytes R (R.searchOid j))

/-- Translate a comparison of (entry key, probe key) into the probe
outcome: entry greater means search left, entry less means search
right, equal means match. -/
def dirOfOrd : Ordering → Dir
  | .gt => .left
  | .lt => .right
  | .eq => .hit

/-! ## `sprint_oid`: binary OID to dotted-decimal text

The caller's buffer is modelled as the list of characters written
(excluding the terminating NUL `snprintf` appends); `snprintf` into a
buffer of remaining capacity `cap` writes at most `cap - 1` characters
and returns the length the full text would have, and the code treats
`count >= bufsize` as overflow (`-ENOBUFS`). -/

/-- The two error returns of `sprint_oid`: `-EBADMSG` (malformed data)
and `-ENOBUFS` (buffer too small). -/
inductive SpErr where
  | badmsg
  | nobufs
deriving DecidableEq

/-- Decimal digits of `n`, as printf `%u` / `%lu` render it. -/
def decChars (n : Nat) : List Char := Nat.toDigits 10 n

/-- The first `snprintf(buffer, bufsize, "%u.%u", n / 40, n % 40)`
segment. -/
def segStr1 (n : Nat) : List Char :=
  decChars (n / 40) ++ '.' :: decChars (n % 40)

/-- A subsequent `snprintf(buffer, bufsize, ".%lu", num)` segment. -/
def segStr (num : Nat) : List Char := '.' :: decChars num

/-- The `"(bad)"` placeholder written on the `bad:` path. -/
def badChars : List Char := ['(', 'b', 'a', 'd', ')']

/-- Truncating `snprintf` write: at most `cap - 1` characters are
stored (plus a NUL, not modelled); with capacity 0 nothing is written. -/
def truncWrite (buf : List Char) (cap : Nat) (s : List Char) : List Char :=
  if cap = 0 then buf else buf ++ s.take (cap - 1)

/-- The `do { ... } while (n & 0x80)` continuation loop of `sprint_oid`:
`num <<= 7; num |= n & 0x7f;` on a 64-bit `unsigned long`, reading
further bytes while the high bit is set.  `none` is the
`if (v >= end) goto bad` exit. -/
def readMore (num : Nat) : List Nat → Option (Nat × List Nat)
  | [] => none
  | n :: rest =>
    let num2 := ((num <<< 7) % U64) ||| (n &&& 0x7f)
    if n &&& 0x80 = 0 then some (num2, rest) else readMore num2 rest

/-- Reading one arc: a byte without the high bit is the whole arc,
otherwise its low 7 bits start the continuation loop. -/
def readArc : List Nat → Option (Nat × List Nat)
  | [] => none
  | n :: rest =>
    if n &&& 0x80 = 0 then some (n, rest)
    else readMore (n &&& 0x7f) rest

/-- The `while (v < end)` arc loop of `sprint_oid`: read an arc (bad
data gives `-EBADMSG` after writing `"(bad)"` at the current position),
print `".%lu"`, fail with `-ENOBUFS` if it does not fit, else advance.
The fuel argument makes the loop structurally recursive; each iteration
consumes at least one byte, so fuel `l.length` is never exhausted. -/
def spLoop : Nat → List Nat → List Char → Nat → Nat →
    Except SpErr Nat × List Char
  | _, [], buf, _, ret => (.ok ret, buf)
  | 0, _ :: _, buf, _, _ => (.error .badmsg, buf)
  | fuel + 1, n :: rest, buf, cap, ret =>
    match readArc (n :: rest) with
    | none => (.error .badmsg, truncWrite buf cap badChars)
    | some (num, rest2) =>
      let s := segStr num
      if s.length ≥ cap then (.error .nobufs, truncWrite buf cap s)
      else spLoop fuel rest2 (buf ++ s) (cap - s.length) (ret + s.length)

/-- `sprint_oid(data, datasize, buffer, bufsize)`: returns the rendered
length (excluding the NUL) and the buffer contents, or an error. -/
def sprint_oid (data : List Nat) (bufsize : Nat) :
    Except SpErr Nat × List Char :=
  match data with
  | [] => (.error .badmsg, truncWrite [] bufsize badChars)
  | n :: rest =>
    let s := segStr1 n
    if s.length ≥ bufsize then (.error .nobufs, truncWrite [] bufsize s)
    else spLoop rest.length rest s (bufsize - s.length) s.length

/-- `sprint_OID(oid, buffer, bufsize)`: look up the symbol's canonical
bytes in the Blob and delegate to `sprint_oid`.  (The C code guards
`oid < OID__NR` with `BUG_ON`; theorems about this function carry that
precondition.) -/
def sprint_OID (R : OIDRegistry) (oid : Nat) (bufsize : Nat) :
    Except SpErr Nat × List Char :=
  sprint_oid (canonBytes R oid) bufsize

/-! ## Specification-side decoding of an encoded OID -/

/-- One base-128 varint group: the leading continuation bytes (high bit
set) and the single terminating byte (high bit clear); `none` if the
input ends while a continuation is still expected. -/
def takeGroup : List Nat → Option (List Nat × List Nat)
  | [] => none
  | n :: rest =>
    if n &&& 0x80 = 0 then some ([n], rest)
    else
      match takeGroup rest with
      | some (g, r) => some (n :: g, r)
      | none => none

/-- Split the bytes after the first into complete varint groups (fueled
by the number of bytes; fuel `l.length` always suffices). -/
def splitArcs : Nat → List Nat → Option (List (List Nat))
  | _, [] => some []
  | 0, _ :: _ => none
  | fuel + 1, n :: rest =>
    match takeGroup (n :: rest) with
    | none => none
    | some (g, r) =>
      match splitArcs fuel r with
      | some gs => some (g :: gs)
      | none => none

/-- The mathematical value of a big-endian base-128 varint group: each
byte contributes its low 7 bits (no word-size truncation). -/
def varVal (g : List Nat) : Nat :=
  g.foldl (fun a b => a * 128 + b % 128) 0

/-- The text the arc loop produces for a list of varint groups: one
`".%lu"` segment per group, the value reduced modulo `2 ^ 64` (the
width of C `unsigned long`). -/
def dotTail (gs : List (List Nat)) : List Char :=
  (gs.map (fun g => segStr (varVal g % U64))).flatten

/-- `true` iff the list is empty or its last byte has the high bit
clear: exactly the byte sequences whose every varint terminates. -/
def lastByteClear (l : List Nat) : Bool :=
  match l.getLast? with
  | none => true
  | some b => b &&& 0x80 == 0

/-- Structural validity of an encoded OID, as the specification states
it: non-empty, and the input does not end in the middle of a base-128
continuation (no trailing byte with the high bit set). -/
def structValid (bytes : List Nat) : Bool :=
  !bytes.isEmpty && lastByteClear bytes.tail

/-! ## `lookup_oid_digest_info`

The `enum OID` constants live in `include/linux/oid_registry.h`, which
is a build-time artifact outside the C file; they are modelled from the
spec as abstract symbols (distinct naturals, as C enumerators of one
enum are distinct).  The C switch writes each requested out-parameter;
per the design note this is modelled as one combined optional result
`(digest_algo, digest_len, digest_oid)`. -/

structure OIDEnum where
  md4WithRSAEncryption : Nat
  sha1WithRSAEncryption : Nat
  sha224WithRSAEncryption : Nat
  sha256WithRSAEncryption : Nat
  sha384WithRSAEncryption : Nat
  sha512WithRSAEncryption : Nat
  id_ecdsa_with_sha1 : Nat
  id_ecdsa_with_sha256 : Nat
  id_ecdsa_with_sha384 : Nat
  id_ecdsa_with_sha512 : Nat
  md4 : Nat
  sha1 : Nat
  sha224 : Nat
  sha256 : Nat
  sha384 : Nat
  sha512 : Nat

/-- The ten signature-algorithm symbols, in the order of the switch
cases. -/
def sigOids (E : OIDEnum) : List Nat :=
  [E.md4WithRSAEncryption, E.sha1WithRSAEncryption,
   E.sha224WithRSAEncryption, E.sha256WithRSAEncryption,
   E.sha384WithRSAEncryption, E.sha512WithRSAEncryption,
   E.id_ecdsa_with_sha1, E.id_ecdsa_with_sha256,
   E.id_ecdsa_with_sha384, E.id_ecdsa_with_sha512]

/-- The six standalone digest symbols. -/
def digestOids (E : OIDEnum) : List Nat :=
  [E.md4, E.sha1, E.sha224, E.sha256, E.sha384, E.sha512]

/-- All sixteen enum constants the function mentions. -/
def allDigestInfoOids (E : OIDEnum) : List Nat :=
  sigOids E ++ digestOids E

/-- `lookup_oid_digest_info`: the switch over the signature-algorithm
symbols; a C switch over distinct case labels is an equality dispatch,
rendered as a chain in source order. -/
def lookup_oid_digest_info (E : OIDEnum) (oid : Nat) :
    Option (String × Nat × Nat) :=
  if oid = E.md4WithRSAEncryption then some ("md4", 16, E.md4)
  else if oid = E.sha1WithRSAEncryption ∨ oid = E.id_ecdsa_with_sha1 then
    some ("sha1", 20, E.sha1)
  else if oid = E.sha224WithRSAEncryption then some ("sha224", 28, E.sha224)
  else if oid = E.sha256WithRSAEncryption ∨ oid = E.id_ecdsa_with_sha256 then
    some ("sha256", 32, E.sha256)
  else if oid = E.sha384WithRSAEncryption ∨ oid = E.id_ecdsa_with_sha384 then
    some ("sha384", 48, E.sha384)
  else if oid = E.sha512WithRSAEncryption ∨ oid = E.id_ecdsa_with_sha512 then
    some ("sha512", 64, E.sha512)
  else none

/-! ## Concrete instances used by the witnesses

A two-symbol registry: symbol 0 has canonical bytes `[42]` (OID 1.2,
hash byte 111), symbol 1 has `[43]` (OID 1.3, hash byte 142); the
search index is sorted by the triple order. -/

def R0 : OIDRegistry where
  N := 2
  searchHash := fun j => if j = 0 then 111 else 142
  searchOid := fun j => j
  index := fun s => min s 2
  data := fun i => if i = 0 then 42 else 43

/-- A concrete assignment of distinct values to the enum constants. -/
def E0 : OIDEnum where
  md4WithRSAEncryption := 0
  sha1WithRSAEncryption := 1
  sha224WithRSAEncryption := 2
  sha256WithRSAEncryption := 3
  sha384WithRSAEncryption := 4
  sha512WithRSAEncryption := 5
  id_ecdsa_with_sha1 := 6
  id_ecdsa_with_sha256 := 7
  id_ecdsa_with_sha384 := 8
  id_ecdsa_with_sha512 := 9
  md4 := 10
  sha1 := 11
  sha224 := 12
  sha256 := 13
  sha384 := 14
  sha512 := 15

/-- The encoding of OID `1.2.840`: first byte `42 = 1 * 40 + 2`, then
`840 = 6 * 128 + 72` as the varint `0x86 0x48`. -/
def oid840 : List Nat := [42, 134, 72]

/-- A well-formed encoding whose third arc is the 10-byte varint of
`2 ^ 64`, one bit past the width of `unsigned long`. -/
def oidWrap64 : List Nat := 42 :: [130, 128, 128, 128, 128, 128, 128, 128, 128, 0]

/-- A well-formed encoding whose third arc is the 11-byte varint of
`2 ^ 70`, well past the width of `unsigned long`. -/
def oidWrap70 : List Nat :=
  42 :: [129, 128, 128, 128, 128, 128, 128, 128, 128, 128, 0]

/-! # Theorems -/

/-! ## The hash (C3) -/

theorem hashLoop_drop : ∀ (fuel : Nat) (octets : List Nat) (h i : Nat),
    octets.length - i ≤ fuel →
    hashLoop octets fuel h i =
      (octets.drop i).foldl (fun h b => (h + b * 33) % U32) h := by
  intro fuel
  induction fuel with
  | zero =>
    intro octets h i hle
    rw [List.drop_eq_nil_of_le (by omega)]
    simp [hashLoop]
  | succ fuel ih =>
    intro octets h i hle
    by_cases hi : i < octets.length
    · simp only [hashLoop, if_pos hi]
      rw [ih _ _ _ (by omega), List.drop_eq_getElem_cons hi, List.foldl_cons]
      simp [List.getD_eq_getElem?_getD, List.getElem?_eq_getElem hi]
    · simp only [hashLoop, if_neg hi]
      rw [List.drop_eq_nil_of_le (by omega)]
      rfl

/-- C3: the 1-byte hash `look_up_OID` computes agrees, on every input
byte sequence, with the specification's reference definition: seed
`length - 1`, add `b * 33` per byte with 32-bit wraparound, XOR-fold
the four byte lanes, mask to 8 bits. -/
theorem oidHash_matches_spec (octets : List Nat) :
    oidHash octets = hashSpec octets := by
  simp only [oidHash, hashSpec]
  rw [hashLoop_drop octets.length octets _ 0 (by omega), List.drop_zero]

/-! ## Order lemmas for the search keys -/

theorem rlistCmp_self (a : List Nat) : ∀ n, rlistCmp a a n = .eq := by
  intro n
  induction n with
  | zero => rfl
  | succ n ih => simp [rlistCmp, ih]

theorem rlistCmp_swap (a b : List Nat) :
    ∀ n, rlistCmp b a n = (rlistCmp a b n).swap := by
  intro n
  induction n with
  | zero => rfl
  | succ n ih =>
    simp only [rlistCmp, gt_iff_lt]
    split_ifs <;> first | rfl | omega | exact ih

theorem rlistCmp_eq_iff (a b : List Nat) : ∀ n,
    rlistCmp a b n = .eq ↔ ∀ m, m < n → a.getD m 0 = b.getD m 0 := by
  intro n
  induction n with
  | zero => simp [rlistCmp]
  | succ n ih =>
    simp only [rlistCmp, gt_iff_lt]
    split_ifs with h1 h2
    · constructor
      · intro hc; simp at hc
      · intro hall; exact absurd (hall n (by omega)) (by omega)
    · constructor
      · intro hc; simp at hc
      · intro hall; exact absurd (hall n (by omega)) (by omega)
    · have he : a.getD n 0 = b.getD n 0 := by omega
      rw [ih]
      constructor
      · intro hall m hm
        rcases Nat.lt_or_ge m n with hm2 | hm2
        · exact hall m hm2
        · have hmn : m = n := by omega
          rw [hmn, he]
      · intro hall m hm
        exact hall m (by omega)

theorem keyCmp_self (x : Nat × Nat × List Nat) : keyCmp x x = .eq := by
  obtain ⟨h, n, l⟩ := x
  simp [keyCmp, rlistCmp_self]

theorem keyCmp_swap (x y : Nat × Nat × List Nat) :
    keyCmp y x = (keyCmp x y).swap := by
  obtain ⟨h1, n1, l1⟩ := x
  obtain ⟨h2, n2, l2⟩ := y
  simp only [keyCmp]
  split_ifs <;>
    first
      | rfl
      | omega
      | (have hn : n2 = n1 := by omega
         subst hn
         exact rlistCmp_swap l1 l2 n2)

theorem keyCmp_eq_parts {x y : Nat × Nat × List Nat}
    (h : keyCmp x y = .eq) :
    x.1 = y.1 ∧ x.2.1 = y.2.1 ∧ rlistCmp x.2.2 y.2.2 x.2.1 = .eq := by
  obtain ⟨h1, n1, l1⟩ := x
  obtain ⟨h2, n2, l2⟩ := y
  dsimp only
  simp only [keyCmp] at h
  split_ifs at h
  exact ⟨by omega, by omega, h⟩

theorem dirOfOrd_hit {o : Ordering} (h : dirOfOrd o = .hit) : o = .eq := by
  cases o <;> first | rfl | simp [dirOfOrd] at h

/-! ## The probe agrees with the triple key comparison -/

theorem canonBytes_length (R : OIDRegistry) (oid : Nat) :
    (canonBytes R oid).length = canonLen R oid := by
  simp [canonBytes]

theorem canonBytes_getD (R : OIDRegistry) (oid m : Nat)
    (hm : m < canonLen R oid) :
    (canonBytes R oid).getD m 0 = R.data (R.index oid + m) := by
  simp [canonBytes, List.getD_eq_getElem?_getD, List.getElem?_map,
    List.getElem?_range hm]

theorem getD_ext {a b : List Nat} (hlen : a.length = b.length)
    (h : ∀ m, m < a.length → a.getD m 0 = b.getD m 0) : a = b := by
  apply List.ext_getElem hlen
  intro i h1 h2
  have hi := h i h1
  rw [List.getD_eq_getElem?_getD, List.getD_eq_getElem?_getD,
    List.getElem?_eq_getElem h1, List.getElem?_eq_getElem h2] at hi
  simpa using hi

theorem revCmpDir_rlist (R : OIDRegistry) (octets : List Nat) (oid : Nat) :
    ∀ m, m ≤ canonLen R oid →
    revCmpDir R octets (R.index oid) m =
      dirOfOrd (rlistCmp (canonBytes R oid) octets m) := by
  intro m
  induction m with
  | zero => intro _; rfl
  | succ m ih =>
    intro hm
    simp only [revCmpDir, rlistCmp, gt_iff_lt]
    rw [canonBytes_getD R oid m (by omega)]
    split_ifs <;> first | rfl | exact ih (by omega)

theorem probeDir_eq (R : OIDRegistry) (octets : List Nat) (hash j : Nat) :
    probeDir R octets hash j =
      dirOfOrd (keyCmp (entryKey R j) (hash, octets.length, octets)) := by
  simp only [probeDir, entryKey, keyCmp, gt_iff_lt]
  split_ifs <;>
    first
      | rfl
      | omega
      | exact revCmpDir_rlist R octets (R.searchOid j) _ (le_refl _)

/-! ## Binary-search correctness (C1, C2) -/

theorem lookLoop_finds (R : OIDRegistry) (octets : List Nat)
    (hash jst : Nat)
    (hsort : ∀ j2, j2 < R.N → ∀ j1, j1 < j2 →
      keyCmp (entryKey R j1) (entryKey R j2) = .lt)
    (hkey : entryKey R jst = (hash, octets.length, octets)) :
    ∀ fuel i k, k - i ≤ fuel → i ≤ jst → jst < k → k ≤ R.N →
    lookLoop R octets hash fuel i k = R.searchOid jst := by
  intro fuel
  induction fuel with
  | zero => intro i k h1 h2 h3 h4; omega
  | succ fuel ih =>
    intro i k h1 h2 h3 h4
    have hik : i < k := by omega
    have hj1 : i ≤ (i + k) / 2 := by omega
    have hj2 : (i + k) / 2 < k := by omega
    simp only [lookLoop, if_pos hik]
    rcases Nat.lt_trichotomy ((i + k) / 2) jst with hj | hj | hj
    · have hp : probeDir R octets hash ((i + k) / 2) = .right := by
        rw [probeDir_eq, ← hkey, hsort jst (by omega) _ hj]
        rfl
      rw [hp]
      exact ih ((i + k) / 2 + 1) k (by omega) (by omega) h3 h4
    · rw [hj, probeDir_eq, ← hkey, keyCmp_self]
      rfl
    · have hp : probeDir R octets hash ((i + k) / 2) = .left := by
        rw [probeDir_eq, ← hkey,
          keyCmp_swap (entryKey R jst) (entryKey R ((i + k) / 2)),
          hsort ((i + k) / 2) (by omega) jst hj]
        rfl
      rw [hp]
      exact ih i ((i + k) / 2) (by omega) h2 hj (by omega)

/-- C1: resolver totality.  For a registry table of the stated shape
(the search index lists the symbols with their correct hash bytes) that
satisfies the triple sort order — strictly ascending by hash byte, then
canonical length, then reverse byte order — `look_up_OID` applied to
the canonical bytes of any symbol `s < N` returns `s`. -/
theorem look_up_OID_roundtrip (R : OIDRegistry) (s : Nat)
    (_hs : s < R.N)
    (hsort : ∀ j2, j2 < R.N → ∀ j1, j1 < j2 →
      keyCmp (entryKey R j1) (entryKey R j2) = .lt)
    (hhash : ∀ j, j < R.N →
      R.searchHash j = oidHash (canonBytes R (R.searchOid j)))
    (hcover : ∃ j, j < R.N ∧ R.searchOid j = s) :
    look_up_OID R (canonBytes R s) = s := by
  obtain ⟨jst, hjN, hjs⟩ := hcover
  have hkey : entryKey R jst =
      (oidHash (canonBytes R s), (canonBytes R s).length, canonBytes R s) := by
    rw [entryKey, hhash jst hjN, hjs, ← canonBytes_length]
  rw [look_up_OID, lookLoop_finds R (canonBytes R s) _ jst hsort hkey R.N 0 R.N
    (by omega) (by omega) hjN (le_refl _), hjs]

/-- Witness for C1 on the concrete two-symbol registry `R0`. -/
theorem look_up_OID_roundtrip_witness :
    look_up_OID R0 (canonBytes R0 0) = 0 :=
  look_up_OID_roundtrip R0 0 (by decide) (by decide) (by decide)
    ⟨0, by decide⟩

theorem lookLoop_miss (R : OIDRegistry) (octets : List Nat) (hash : Nat)
    (hrange : ∀ j, j < R.N → R.searchOid j < R.N)
    (hne : ∀ s, s < R.N → octets ≠ canonBytes R s) :
    ∀ fuel i k, k ≤ R.N → lookLoop R octets hash fuel i k = R.N := by
  intro fuel
  induction fuel with
  | zero => intro i k hk; rfl
  | succ fuel ih =>
    intro i k hk
    by_cases hik : i < k
    · simp only [lookLoop, if_pos hik]
      rcases hp : probeDir R octets hash ((i + k) / 2) with _ | _ | _
      · exact ih i ((i + k) / 2) (by omega)
      · exact ih ((i + k) / 2 + 1) k hk
      · exfalso
        rw [probeDir_eq] at hp
        have hkeq := dirOfOrd_hit hp
        obtain ⟨-, hlen, hbytes⟩ := keyCmp_eq_parts hkeq
        dsimp only [entryKey] at hlen hbytes
        have hoid : R.searchOid ((i + k) / 2) < R.N :=
          hrange _ (by omega)
        apply hne _ hoid
        apply Eq.symm
        apply getD_ext
        · rw [canonBytes_length, hlen]
        · intro m hm
          rw [canonBytes_length] at hm
          exact (rlistCmp_eq_iff _ _ _).mp hbytes m hm
    · simp only [lookLoop, if_neg hik]

/-- C2: resolver rejection.  For any byte sequence (the empty sequence
included) different from every symbol's canonical bytes, `look_up_OID`
on a registry table of the stated shape (search-index symbols in range,
triple sort order) returns the NOT_FOUND sentinel `R.N`; being a total
function, it raises no fault on a miss. -/
theorem look_up_OID_miss (R : OIDRegistry) (octets : List Nat)
    (_hsort : ∀ j2, j2 < R.N → ∀ j1, j1 < j2 →
      keyCmp (entryKey R j1) (entryKey R j2) = .lt)
    (hrange : ∀ j, j < R.N → R.searchOid j < R.N)
    (hne : ∀ s, s < R.N → octets ≠ canonBytes R s) :
    look_up_OID R octets = R.N := by
  rw [look_up_OID]
  exact lookLoop_miss R octets _ hrange hne R.N 0 R.N (le_refl _)

/-- Witness for C2 on `R0`, with the empty byte sequence as input. -/
theorem look_up_OID_miss_witness : look_up_OID R0 [] = 2 :=
  look_up_OID_miss R0 [] (by decide) (by decide) (by decide)

/-! ## Structure of the arc reader -/

theorem readMore_none_all {l : List Nat} :
    ∀ num, readMore num l = none → ∀ b ∈ l, b &&& 0x80 ≠ 0 := by
  induction l with
  | nil => intro num _ b hb; simp at hb
  | cons n rest ih =>
    intro num h b hb
    simp only [readMore] at h
    split_ifs at h with hc
    rcases List.mem_cons.mp hb with hb2 | hb2
    · rw [hb2]; exact hc
    · exact ih _ h b hb2

theorem readMore_decomp {l : List Nat} :
    ∀ num x r, readMore num l = some (x, r) →
    ∃ pre c, l = pre ++ c :: r ∧ c &&& 0x80 = 0 := by
  induction l with
  | nil => intro num x r h; simp [readMore] at h
  | cons n rest ih =>
    intro num x r h
    simp only [readMore] at h
    split_ifs at h with hc
    · simp only [Option.some.injEq, Prod.mk.injEq] at h
      exact ⟨[], n, by simp [h.2], hc⟩
    · obtain ⟨pre, c, hl, hcc⟩ := ih _ _ _ h
      exact ⟨n :: pre, c, by rw [List.cons_append, hl], hcc⟩

theorem readArc_none_all {l : List Nat} (h : readArc l = none) :
    ∀ b ∈ l, b &&& 0x80 ≠ 0 := by
  cases l with
  | nil => intro b hb; simp at hb
  | cons n rest =>
    simp only [readArc] at h
    split_ifs at h with hc
    intro b hb
    rcases List.mem_cons.mp hb with hb2 | hb2
    · rw [hb2]; exact hc
    · exact readMore_none_all _ h b hb2

theorem readArc_decomp {l : List Nat} {x : Nat} {r : List Nat}
    (h : readArc l = some (x, r)) :
    ∃ pre c, l = pre ++ c :: r ∧ c &&& 0x80 = 0 := by
  cases l with
  | nil => simp [readArc] at h
  | cons n rest =>
    simp only [readArc] at h
    split_ifs at h with hc
    · simp only [Option.some.injEq, Prod.mk.injEq] at h
      exact ⟨[], n, by simp [h.2], hc⟩
    · obtain ⟨pre, c, hl, hcc⟩ := readMore_decomp _ _ _ h
      exact ⟨n :: pre, c, by rw [List.cons_append, hl], hcc⟩

theorem readArc_length {l : List Nat} {x : Nat} {r : List Nat}
    (h : readArc l = some (x, r)) : r.length < l.length := by
  obtain ⟨pre, c, hl, -⟩ := readArc_decomp h
  rw [hl]
  simp only [List.length_append, List.length_cons]
  omega

/-! ## The trailing-byte characterisation of well-formedness -/

theorem lastByteClear_concat (pre : List Nat) (c : Nat) :
    lastByteClear (pre ++ [c]) = (c &&& 0x80 == 0) := by
  rw [lastByteClear, List.getLast?_concat]

theorem lastByteClear_append {l1 l2 : List Nat} (h : l2 ≠ []) :
    lastByteClear (l1 ++ l2) = lastByteClear l2 := by
  rw [lastByteClear, lastByteClear, List.getLast?_append]
  cases h2 : l2.getLast? with
  | none => exact absurd (List.getLast?_eq_none_iff.mp h2) h
  | some x => rfl

theorem lastByteClear_false_of_all {l : List Nat} (hne : l ≠ [])
    (h : ∀ b ∈ l, b &&& 0x80 ≠ 0) : lastByteClear l = false := by
  rw [lastByteClear]
  cases hg : l.getLast? with
  | none => exact absurd (List.getLast?_eq_none_iff.mp hg) hne
  | some b =>
    have hb : b ∈ l := List.mem_of_getLast?_eq_some hg
    simp [h b hb]

theorem readArc_clear {l : List Nat} {x : Nat} {r : List Nat}
    (ha : readArc l = some (x, r))
    (hc : lastByteClear l = true) : lastByteClear r = true := by
  obtain ⟨pre, c, hl, hcc⟩ := readArc_decomp ha
  cases r with
  | nil => rfl
  | cons m r2 =>
    rw [hl, List.append_cons, lastByteClear_append (by simp)] at hc
    exact hc

theorem readArc_not_clear {l : List Nat} {x : Nat} {r : List Nat}
    (ha : readArc l = some (x, r))
    (hc : lastByteClear l = false) : lastByteClear r = false := by
  obtain ⟨pre, c, hl, hcc⟩ := readArc_decomp ha
  cases r with
  | nil =>
    rw [hl, lastByteClear_concat] at hc
    simp [hcc] at hc
  | cons m r2 =>
    rw [hl, List.append_cons, lastByteClear_append (by simp)] at hc
    exact hc

/-! ## Malformed-data behaviour of the arc loop -/

theorem spLoop_clear_no_badmsg :
    ∀ fuel (l : List Nat) (buf : List Char) (cap ret : Nat),
    l.length ≤ fuel → lastByteClear l = true →
    (spLoop fuel l buf cap ret).1 ≠ .error .badmsg := by
  intro fuel
  induction fuel with
  | zero =>
    intro l buf cap ret hlen hclear
    cases l with
    | nil => simp [spLoop]
    | cons n rest => simp at hlen
  | succ fuel ih =>
    intro l buf cap ret hlen hclear
    cases l with
    | nil => simp [spLoop]
    | cons n rest =>
      rcases ha : readArc (n :: rest) with _ | ⟨num, rest2⟩
      · exfalso
        have hfalse := lastByteClear_false_of_all (l := n :: rest) (by simp)
          (readArc_none_all ha)
        rw [hfalse] at hclear
        simp at hclear
      · simp only [spLoop, ha]
        split_ifs with hcap
        · simp
        · exact ih rest2 _ _ _
            (by have hr2 := readArc_length ha
                simp only [List.length_cons] at hr2 hlen
                omega)
            (readArc_clear ha hclear)

theorem spLoop_not_clear_no_ok :
    ∀ fuel (l : List Nat) (buf : List Char) (cap ret : Nat),
    l.length ≤ fuel → lastByteClear l = false →
    ∀ res, (spLoop fuel l buf cap ret).1 ≠ .ok res := by
  intro fuel
  induction fuel with
  | zero =>
    intro l buf cap ret hlen hclear res
    cases l with
    | nil => simp [lastByteClear] at hclear
    | cons n rest => simp at hlen
  | succ fuel ih =>
    intro l buf cap ret hlen hclear res
    cases l with
    | nil => simp [lastByteClear] at hclear
    | cons n rest =>
      rcases ha : readArc (n :: rest) with _ | ⟨num, rest2⟩
      · simp [spLoop, ha]
      · simp only [spLoop, ha]
        split_ifs with hcap
        · simp
        · exact ih rest2 _ _ _
            (by have hr2 := readArc_length ha
                simp only [List.length_cons] at hr2 hlen
                omega)
            (readArc_not_clear ha hclear) res

/-- Shared: a structurally valid input can never produce `-EBADMSG`. -/
theorem sprint_oid_valid_no_badmsg (bytes : List Nat) (cap : Nat)
    (hv : structValid bytes = true) :
    (sprint_oid bytes cap).1 ≠ .error .badmsg := by
  cases bytes with
  | nil => simp [structValid] at hv
  | cons n rest =>
    simp only [sprint_oid]
    split_ifs with hcap
    · simp
    · exact spLoop_clear_no_badmsg rest.length rest _ _ _ (le_refl _)
        (by simpa [structValid] using hv)

theorem spLoop_ok_length :
    ∀ fuel (l : List Nat) (buf : List Char) (cap ret res : Nat)
      (bo : List Char),
    spLoop fuel l buf cap ret = (.ok res, bo) →
    ret = buf.length → res = bo.length := by
  intro fuel
  induction fuel with
  | zero =>
    intro l buf cap ret res bo h hr
    cases l with
    | nil =>
      simp only [spLoop, Prod.mk.injEq, Except.ok.injEq] at h
      rw [← h.2, ← h.1]
      exact hr
    | cons n rest => simp [spLoop] at h
  | succ fuel ih =>
    intro l buf cap ret res bo h hr
    cases l with
    | nil =>
      simp only [spLoop, Prod.mk.injEq, Except.ok.injEq] at h
      rw [← h.2, ← h.1]
      exact hr
    | cons n rest =>
      rcases ha : readArc (n :: rest) with _ | ⟨num, rest2⟩
      · simp [spLoop, ha] at h
      · simp only [spLoop, ha] at h
        split_ifs at h with hcap
        · simp at h
        · exact ih rest2 _ _ _ _ _ h (by simp [hr])

/-- C4 (amended): `sprint_oid` returns `-EBADMSG` for the empty input
at every capacity; it never returns `-EBADMSG` for a structurally valid
input; and whenever it does not return `-ENOBUFS`, it returns
`-EBADMSG` exactly for the structurally invalid inputs (empty, or a
trailing byte with the high bit set). -/
theorem sprint_oid_malformed_iff (bytes : List Nat) (cap : Nat) :
    (bytes = [] → (sprint_oid bytes cap).1 = .error .badmsg)
    ∧ (structValid bytes = true →
        (sprint_oid bytes cap).1 ≠ .error .badmsg)
    ∧ ((sprint_oid bytes cap).1 ≠ .error .nobufs →
        ((sprint_oid bytes cap).1 = .error .badmsg ↔
          structValid bytes = false)) := by
  refine ⟨?_, sprint_oid_valid_no_badmsg bytes cap, ?_⟩
  · intro h
    rw [h]
    rfl
  · intro hnb
    constructor
    · intro hb
      cases hsv : structValid bytes with
      | false => rfl
      | true => exact absurd hb (sprint_oid_valid_no_badmsg bytes cap hsv)
    · intro hv
      have hno : ∀ res, (sprint_oid bytes cap).1 ≠ .ok res := by
        intro res
        cases bytes with
        | nil => simp [sprint_oid]
        | cons n rest =>
          simp only [sprint_oid]
          split_ifs with hcap
          · simp
          · exact spLoop_not_clear_no_ok rest.length rest _ _ _ (le_refl _)
              (by simpa [structValid] using hv) res
      rcases hres : (sprint_oid bytes cap).1 with e | res
      · cases e with
        | badmsg => rfl
        | nobufs => exact absurd hres hnb
      · exact absurd hres (hno res)

/-- C4 counterexample: `[0x2A, 0x80]` is structurally invalid (it ends
mid-continuation), yet with capacity 1 `sprint_oid` fails with
`-ENOBUFS` before reaching the truncated varint, not with `-EBADMSG`. -/
theorem sprint_oid_malformed_counterexample :
    structValid [42, 128] = false ∧
    (sprint_oid [42, 128] 1).1 = .error .nobufs := by
  exact ⟨by decide, rfl⟩

/-- Witness for the amended C4 at input `[0x2A, 0x80]`, capacity 9. -/
theorem sprint_oid_malformed_iff_witness :
    ((sprint_oid [42, 128] 9).1 = .error .badmsg ↔
      structValid [42, 128] = false) :=
  (sprint_oid_malformed_iff [42, 128] 9).2.2 (fun hcontra => nomatch hcontra)

/-- C7: rendering a valid symbol (`oid < N`) from a registry table
whose every stored canonical encoding is structurally well-formed can
never produce `-EBADMSG`; only `-ENOBUFS` is reachable as an error. -/
theorem sprint_OID_no_malformed (R : OIDRegistry) (oid bufsize : Nat)
    (hoid : oid < R.N)
    (hwf : ∀ s, s < R.N → structValid (canonBytes R s) = true) :
    (sprint_OID R oid bufsize).1 ≠ .error .badmsg := by
  rw [sprint_OID]
  exact sprint_oid_valid_no_badmsg _ _ (hwf oid hoid)

/-- Witness for C7 on the concrete registry `R0`. -/
theorem sprint_OID_no_malformed_witness :
    (sprint_OID R0 0 10).1 ≠ .error .badmsg :=
  sprint_OID_no_malformed R0 0 10 (by decide) (by decide)

/-! ## The varint values the arc loop computes -/

theorem and127_mod (m : Nat) : m &&& 127 = m % 128 := by
  have h := Nat.and_pow_two_sub_one_eq_mod m 7
  norm_num at h
  exact h

theorem clear_byte_eq {n : Nat} (hn : n < 256) (hc : n &&& 0x80 = 0) :
    n % 128 = n := by
  apply Nat.mod_eq_of_lt
  have h2 := Nat.and_two_pow n 7
  norm_num at h2
  rw [hc] at h2
  rcases hb : n.testBit 7 with _ | _
  · rw [Nat.testBit_to_div_mod] at hb
    norm_num at hb
    omega
  · rw [hb] at h2
    simp at h2

theorem shiftLeft_or_small (a b : Nat) (hb : b < 128) :
    ((a <<< 7) % U64) ||| b = (a * 128 + b) % U64 := by
  have h7 : (2 : Nat) ^ 7 = 128 := by norm_num
  have hm : a * 128 % U64 = 128 * (a % 2 ^ 57) := by
    rw [U64, show (2 : Nat) ^ 64 = 128 * 2 ^ 57 by norm_num,
      Nat.mul_comm a 128, Nat.mul_mod_mul_left]
  have hq : a % 2 ^ 57 < 2 ^ 57 := Nat.mod_lt _ (by norm_num)
  have hbU : b < U64 := lt_of_lt_of_le hb (by rw [U64]; norm_num)
  have hsum : 128 * (a % 2 ^ 57) + b < U64 := by
    have e1 : (2 : Nat) ^ 57 = 144115188075855872 := by norm_num
    rw [U64, show (2 : Nat) ^ 64 = 18446744073709551616 by norm_num]
    rw [e1] at hq
    omega
  have hrhs : (a * 128 + b) % U64 = 128 * (a % 2 ^ 57) + b := by
    rw [Nat.add_mod, hm, Nat.mod_eq_of_lt hbU, Nat.mod_eq_of_lt hsum]
  have hor := Nat.mul_add_lt_is_or (i := 7) (b := b)
    (by rw [h7]; exact hb) (a % 2 ^ 57)
  rw [h7] at hor
  rw [Nat.shiftLeft_eq, h7, hm, hrhs]
  exact hor.symm

theorem foldl_mod (g : List Nat) : ∀ a : Nat,
    List.foldl (fun x b => (x * 128 + b % 128) % U64) (a % U64) g =
      (List.foldl (fun x b => x * 128 + b % 128) a g) % U64 := by
  induction g with
  | nil => intro a; rfl
  | cons b g2 ih =>
    intro a
    simp only [List.foldl_cons]
    rw [← ih (a * 128 + b % 128)]
    congr 1
    rw [Nat.add_mod (a % U64 * 128), Nat.mod_mul_mod, ← Nat.add_mod]

theorem readMore_group :
    ∀ (rest g r : List Nat) (acc : Nat),
    (∀ b ∈ rest, b < 256) →
    takeGroup rest = some (g, r) →
    readMore acc rest =
      some (g.foldl (fun a b => (a * 128 + b % 128) % U64) acc, r) := by
  intro rest
  induction rest with
  | nil => intro g r acc _ ht; simp [takeGroup] at ht
  | cons m rest2 ih =>
    intro g r acc hb ht
    simp only [takeGroup] at ht
    simp only [readMore]
    split_ifs at ht ⊢ with hc
    · simp only [Option.some.injEq, Prod.mk.injEq] at ht
      obtain ⟨hg, hr⟩ := ht
      rw [← hg, ← hr]
      rw [and127_mod, shiftLeft_or_small acc (m % 128) (Nat.mod_lt _ (by norm_num))]
      rfl
    · rcases ht2 : takeGroup rest2 with _ | ⟨g2, r2⟩
      · rw [ht2] at ht; simp at ht
      · rw [ht2] at ht
        simp only [Option.some.injEq, Prod.mk.injEq] at ht
        obtain ⟨hg, hr⟩ := ht
        rw [← hg, ← hr]
        rw [and127_mod, shiftLeft_or_small acc (m % 128) (Nat.mod_lt _ (by norm_num))]
        rw [ih g2 r2 _ (fun b hb2 => hb b (List.mem_cons_of_mem m hb2)) ht2]
        simp [List.foldl_cons]

theorem takeGroup_readArc {l : List Nat} {g r : List Nat}
    (hb : ∀ b ∈ l, b < 256) (ht : takeGroup l = some (g, r)) :
    readArc l = some (varVal g % U64, r) := by
  cases l with
  | nil => simp [takeGroup] at ht
  | cons n rest =>
    simp only [takeGroup] at ht
    simp only [readArc]
    split_ifs at ht ⊢ with hc
    · simp only [Option.some.injEq, Prod.mk.injEq] at ht
      obtain ⟨hg, hr⟩ := ht
      rw [← hg, ← hr]
      have hn : n % 128 = n := clear_byte_eq (hb n (by simp)) hc
      have hU : n < U64 :=
        lt_of_lt_of_le (hb n (by simp)) (by rw [U64]; norm_num)
      simp [varVal, hn, Nat.mod_eq_of_lt hU]
    · rcases ht2 : takeGroup rest with _ | ⟨g2, r2⟩
      · rw [ht2] at ht; simp at ht
      · rw [ht2] at ht
        simp only [Option.some.injEq, Prod.mk.injEq] at ht
        obtain ⟨hg, hr⟩ := ht
        rw [← hg, ← hr]
        rw [readMore_group rest g2 r2 (n &&& 127)
          (fun b hb2 => hb b (List.mem_cons_of_mem n hb2)) ht2]
        rw [and127_mod,
          show n % 128 = n % 128 % U64 from
            (Nat.mod_eq_of_lt (lt_of_lt_of_le (Nat.mod_lt n (by norm_num))
              (by rw [U64]; norm_num))).symm,
          foldl_mod]
        simp [varVal]

theorem takeGroup_append {l : List Nat} :
    ∀ g r, takeGroup l = some (g, r) → l = g ++ r ∧ g ≠ [] := by
  induction l with
  | nil => intro g r h; simp [takeGroup] at h
  | cons n rest ih =>
    intro g r h
    simp only [takeGroup] at h
    split_ifs at h with hc
    · simp only [Option.some.injEq, Prod.mk.injEq] at h
      obtain ⟨hg, hr⟩ := h
      rw [← hg, ← hr]
      exact ⟨by simp, by simp⟩
    · rcases ht2 : takeGroup rest with _ | ⟨g2, r2⟩
      · rw [ht2] at h; simp at h
      · rw [ht2] at h
        simp only [Option.some.injEq, Prod.mk.injEq] at h
        obtain ⟨hg, hr⟩ := h
        obtain ⟨hl2, -⟩ := ih g2 r2 ht2
        rw [← hg, ← hr]
        exact ⟨by rw [List.cons_append, ← hl2], by simp⟩

/-! ## Successful rendering (C5, C8, C10) -/

theorem spLoop_renders :
    ∀ fuel (l : List Nat) (gs : List (List Nat)) (f2 : Nat)
      (buf : List Char) (cap ret : Nat),
    l.length ≤ fuel → l.length ≤ f2 →
    (∀ b ∈ l, b < 256) →
    splitArcs f2 l = some gs →
    (dotTail gs).length < cap →
    spLoop fuel l buf cap ret =
      (.ok (ret + (dotTail gs).length), buf ++ dotTail gs) := by
  intro fuel
  induction fuel with
  | zero =>
    intro l gs f2 buf cap ret hlen hf2 hb hsp hcap
    cases l with
    | nil =>
      simp only [splitArcs, Option.some.injEq] at hsp
      rw [← hsp]
      simp [spLoop, dotTail]
    | cons n rest => simp at hlen
  | succ fuel ih =>
    intro l gs f2 buf cap ret hlen hf2 hb hsp hcap
    cases l with
    | nil =>
      simp only [splitArcs, Option.some.injEq] at hsp
      rw [← hsp]
      simp [spLoop, dotTail]
    | cons n rest =>
      cases f2 with
      | zero => simp at hf2
      | succ f2 =>
        rcases ht : takeGroup (n :: rest) with _ | ⟨g, r⟩
        · simp [splitArcs, ht] at hsp
        · rcases hsp2 : splitArcs f2 r with _ | gs2
          · simp [splitArcs, ht, hsp2] at hsp
          · simp only [splitArcs, ht, hsp2, Option.some.injEq] at hsp
            have ha := takeGroup_readArc (l := n :: rest) hb ht
            obtain ⟨happ, hgne⟩ := takeGroup_append _ _ ht
            have hrlen : r.length < (n :: rest).length := by
              rw [happ, List.length_append]
              have := List.length_pos.mpr hgne
              omega
            have hdt : dotTail (g :: gs2) =
                segStr (varVal g % U64) ++ dotTail gs2 := by
              simp [dotTail]
            rw [← hsp] at hcap ⊢
            rw [hdt] at hcap ⊢
            simp only [spLoop, ha]
            rw [List.length_append] at hcap
            split_ifs with hc
            · omega
            · rw [ih r gs2 f2 _ _ _
                (by simp only [List.length_cons] at hlen hrlen; omega)
                (by simp only [List.length_cons] at hf2 hrlen; omega)
                (fun b hb2 => hb b (by rw [happ]; exact List.mem_append_right g hb2))
                hsp2 (by omega)]
              rw [List.length_append, List.append_assoc, Nat.add_assoc]

/-- Shared: on a well-formed input whose rendering fits, `sprint_oid`
succeeds with the dotted-decimal text of the decoded arcs. -/
theorem sprint_oid_ok_render (n : Nat) (rest : List Nat)
    (gs : List (List Nat)) (cap : Nat)
    (hb : ∀ b ∈ n :: rest, b < 256)
    (hsp : splitArcs rest.length rest = some gs)
    (hcap : (segStr1 n).length + (dotTail gs).length < cap) :
    sprint_oid (n :: rest) cap =
      (.ok ((segStr1 n).length + (dotTail gs).length),
        segStr1 n ++ dotTail gs) := by
  simp only [sprint_oid]
  rw [if_neg (by omega)]
  rw [spLoop_renders rest.length rest gs rest.length _ _ _ (le_refl _)
    (le_refl _) (fun b hb2 => hb b (List.mem_cons_of_mem n hb2)) hsp
    (by omega)]

/-- Shared: a successful `sprint_oid` returns exactly the number of
characters it wrote (the terminating NUL excluded). -/
theorem sprint_oid_ok_length (bytes : List Nat) (cap res : Nat)
    (bo : List Char) (h : sprint_oid bytes cap = (.ok res, bo)) :
    res = bo.length := by
  cases bytes with
  | nil => simp [sprint_oid] at h
  | cons n rest =>
    simp only [sprint_oid] at h
    split_ifs at h with hcap
    · simp at h
    · exact spLoop_ok_length rest.length rest _ _ _ _ _ h rfl

/-- C5: rendering `"1.2.840"` (bytes `06 03`-less, `[0x2A, 0x86, 0x48]`)
into capacity 7 fails with `-ENOBUFS` (the `".840"` segment no longer
fits together with the terminator); every capacity of at least 8
succeeds returning 7; and in general a successful `sprint_oid` returns
the number of characters written, the implicit terminator excluded. -/
theorem sprint_oid_capacity :
    (sprint_oid oid840 7).1 = .error .nobufs
    ∧ (∀ cap, 8 ≤ cap →
        sprint_oid oid840 cap = (.ok 7, ['1', '.', '2', '.', '8', '4', '0']))
    ∧ (∀ (bytes : List Nat) (cap res : Nat) (bo : List Char),
        sprint_oid bytes cap = (.ok res, bo) → res = bo.length) := by
  refine ⟨rfl, ?_, sprint_oid_ok_length⟩
  intro cap hcap
  have h := sprint_oid_ok_render 42 [134, 72] [[134, 72]] cap (by decide)
    (by decide)
    (by rw [show (segStr1 42).length + (dotTail [[134, 72]]).length = 7
          from rfl]
        omega)
  rw [show oid840 = 42 :: [134, 72] from rfl, h]
  rfl

/-- Witness for C5 at capacity 8. -/
theorem sprint_oid_capacity_witness :
    sprint_oid oid840 8 = (.ok 7, ['1', '.', '2', '.', '8', '4', '0']) :=
  sprint_oid_capacity.2.1 8 (by omega)

/-- C8 (amended): for a non-empty well-formed input whose rendering
fits the buffer, `sprint_oid` decodes the first byte `n` into the arcs
`n / 40` and `n % 40`, decodes each subsequent arc as a big-endian
base-128 varint (each byte contributing its low 7 bits, the high bit
signalling continuation) reduced modulo `2 ^ 64` — the width of the
`unsigned long` accumulator — and emits the arcs as dotted-decimal
text in input order. -/
theorem sprint_oid_renders_arcs (n : Nat) (rest : List Nat)
    (gs : List (List Nat)) (cap : Nat)
    (hb : ∀ b ∈ n :: rest, b < 256)
    (hsp : splitArcs rest.length rest = some gs)
    (hcap : (segStr1 n).length + (dotTail gs).length < cap) :
    sprint_oid (n :: rest) cap =
      (.ok ((segStr1 n).length + (dotTail gs).length),
        (decChars (n / 40) ++ '.' :: decChars (n % 40)) ++
          (gs.map (fun g => '.' :: decChars (varVal g % U64))).flatten) :=
  sprint_oid_ok_render n rest gs cap hb hsp hcap

/-- Witness for the amended C8 on the encoding of `1.2.5`. -/
theorem sprint_oid_renders_arcs_witness :
    sprint_oid [42, 5] 6 = (.ok 5, ['1', '.', '2', '.', '5']) := by
  have h := sprint_oid_renders_arcs 42 [5] [[5]] 6 (by decide) (by decide)
    (by decide)
  exact h

/-- C8 counterexample: the pure varint value of the third arc of
`oidWrap64` is `2 ^ 64`, but the rendered text shows `0` — the arc is
reduced modulo the `unsigned long` width, so the claim's unreduced
big-endian base-128 reading of the arc does not describe the output. -/
theorem sprint_oid_arc_counterexample :
    structValid oidWrap64 = true ∧
    varVal [130, 128, 128, 128, 128, 128, 128, 128, 128, 0] = 2 ^ 64 ∧
    (sprint_oid oidWrap64 30).2 = ['1', '.', '2', '.', '0'] ∧
    (sprint_oid oidWrap64 30).2 ≠
      segStr1 42 ++ segStr (varVal [130, 128, 128, 128, 128, 128, 128, 128, 128, 0]) := by
  refine ⟨by decide, by decide, rfl, by decide⟩

/-- C10: a well-formed input whose arc varint is wider than the 64-bit
accumulator still renders successfully, with the arc wrapped modulo
`2 ^ 64`: the true third arc of `oidWrap70` is `2 ^ 70`, yet the call
succeeds and prints `"1.2.0"`, a numerically incorrect arc. -/
theorem sprint_oid_wraparound :
    structValid oidWrap70 = true ∧
    varVal [129, 128, 128, 128, 128, 128, 128, 128, 128, 128, 0] = 2 ^ 70 ∧
    2 ^ 70 % U64 = 0 ∧
    sprint_oid oidWrap70 20 = (.ok 5, ['1', '.', '2', '.', '0']) ∧
    ['1', '.', '2', '.', '0'] ≠
      segStr1 42 ++ segStr (varVal [129, 128, 128, 128, 128, 128, 128, 128, 128, 128, 0]) := by
  refine ⟨by decide, by decide, by decide, rfl, by decide⟩

/-! ## The digest-information table (C6) -/

/-- C6: `lookup_oid_digest_info` succeeds for exactly the ten
enumerated signature-algorithm symbols, yielding the fixed lowercase
digest name, the fixed digest length (16/20/28/32/48/64) and the
standalone digest algorithm's symbol; every other symbol — the
standalone digest symbols included — yields none (no out-parameter is
written).  The hypothesis is what the C `enum OID` guarantees: the
sixteen constants are pairwise distinct. -/
theorem lookup_oid_digest_info_spec (E : OIDEnum)
    (hd : (allDigestInfoOids E).Nodup) :
    (lookup_oid_digest_info E E.md4WithRSAEncryption =
        some ("md4", 16, E.md4)
     ∧ lookup_oid_digest_info E E.sha1WithRSAEncryption =
        some ("sha1", 20, E.sha1)
     ∧ lookup_oid_digest_info E E.id_ecdsa_with_sha1 =
        some ("sha1", 20, E.sha1)
     ∧ lookup_oid_digest_info E E.sha224WithRSAEncryption =
        some ("sha224", 28, E.sha224)
     ∧ lookup_oid_digest_info E E.sha256WithRSAEncryption =
        some ("sha256", 32, E.sha256)
     ∧ lookup_oid_digest_info E E.id_ecdsa_with_sha256 =
        some ("sha256", 32, E.sha256)
     ∧ lookup_oid_digest_info E E.sha384WithRSAEncryption =
        some ("sha384", 48, E.sha384)
     ∧ lookup_oid_digest_info E E.id_ecdsa_with_sha384 =
        some ("sha384", 48, E.sha384)
     ∧ lookup_oid_digest_info E E.sha512WithRSAEncryption =
        some ("sha512", 64, E.sha512)
     ∧ lookup_oid_digest_info E E.id_ecdsa_with_sha512 =
        some ("sha512", 64, E.sha512))
    ∧ (∀ x : Nat, x ∉ sigOids E → lookup_oid_digest_info E x = none)
    ∧ (∀ d ∈ digestOids E, lookup_oid_digest_info E d = none) := by
  simp only [allDigestInfoOids, sigOids, digestOids, List.cons_append,
    List.nil_append, List.nodup_cons, List.mem_cons, List.not_mem_nil,
    or_false, not_or, List.nodup_nil, and_true] at hd
  obtain ⟨⟨h1_2, h1_3, h1_4, h1_5, h1_6, h1_7, h1_8, h1_9, h1_10, h1_11, h1_12, h1_13, h1_14, h1_15, h1_16⟩,
        ⟨h2_3, h2_4, h2_5, h2_6, h2_7, h2_8, h2_9, h2_10, h2_11, h2_12, h2_13, h2_14, h2_15, h2_16⟩,
        ⟨h3_4, h3_5, h3_6, h3_7, h3_8, h3_9, h3_10, h3_11, h3_12, h3_13, h3_14, h3_15, h3_16⟩,
        ⟨h4_5, h4_6, h4_7, h4_8, h4_9, h4_10, h4_11, h4_12, h4_13, h4_14, h4_15, h4_16⟩,
        ⟨h5_6, h5_7, h5_8, h5_9, h5_10, h5_11, h5_12, h5_13, h5_14, h5_15, h5_16⟩,
        ⟨h6_7, h6_8, h6_9, h6_10, h6_11, h6_12, h6_13, h6_14, h6_15, h6_16⟩,
        ⟨h7_8, h7_9, h7_10, h7_11, h7_12, h7_13, h7_14, h7_15, h7_16⟩,
        ⟨h8_9, h8_10, h8_11, h8_12, h8_13, h8_14, h8_15, h8_16⟩,
        ⟨h9_10, h9_11, h9_12, h9_13, h9_14, h9_15, h9_16⟩,
        ⟨h10_11, h10_12, h10_13, h10_14, h10_15, h10_16⟩, -⟩ := hd
  have hnone : ∀ x : Nat, x ∉ sigOids E → lookup_oid_digest_info E x = none := by
    intro x hx
    simp only [sigOids, List.mem_cons, List.not_mem_nil, or_false,
      not_or] at hx
    obtain ⟨n1, n2, n3, n4, n5, n6, n7, n8, n9, n10⟩ := hx
    simp [lookup_oid_digest_info, n1, n2, n3, n4, n5, n6, n7, n8, n9, n10]
  refine ⟨?_, hnone, ?_⟩
  · refine ⟨?_, ?_, ?_, ?_, ?_, ?_, ?_, ?_, ?_, ?_⟩
    · simp [lookup_oid_digest_info]
    · simp [lookup_oid_digest_info, Ne.symm h1_2]
    · simp [lookup_oid_digest_info, Ne.symm h1_7]
    · simp [lookup_oid_digest_info, Ne.symm h1_3, Ne.symm h2_3, h3_7]
    · simp [lookup_oid_digest_info, Ne.symm h1_4, Ne.symm h2_4, h4_7, Ne.symm h3_4]
    · simp [lookup_oid_digest_info, Ne.symm h1_8, Ne.symm h2_8, Ne.symm h7_8, Ne.symm h3_8]
    · simp [lookup_oid_digest_info, Ne.symm h1_5, Ne.symm h2_5, h5_7, Ne.symm h3_5, Ne.symm h4_5, h5_8]
    · simp [lookup_oid_digest_info, Ne.symm h1_9, Ne.symm h2_9, Ne.symm h7_9, Ne.symm h3_9, Ne.symm h4_9, Ne.symm h8_9]
    · simp [lookup_oid_digest_info, Ne.symm h1_6, Ne.symm h2_6, h6_7, Ne.symm h3_6, Ne.symm h4_6, h6_8, Ne.symm h5_6, h6_9]
    · simp [lookup_oid_digest_info, Ne.symm h1_10, Ne.symm h2_10, Ne.symm h7_10, Ne.symm h3_10, Ne.symm h4_10, Ne.symm h8_10, Ne.symm h5_10, Ne.symm h9_10]
  · intro d hdd
    apply hnone
    simp only [digestOids, List.mem_cons, List.not_mem_nil, or_false] at hdd
    simp only [sigOids, List.mem_cons, List.not_mem_nil, or_false, not_or]
    rcases hdd with h | h | h | h | h | h
    · rw [h]
      exact ⟨Ne.symm h1_11, Ne.symm h2_11, Ne.symm h3_11, Ne.symm h4_11, Ne.symm h5_11, Ne.symm h6_11, Ne.symm h7_11, Ne.symm h8_11, Ne.symm h9_11, Ne.symm h10_11⟩
    · rw [h]
      exact ⟨Ne.symm h1_12, Ne.symm h2_12, Ne.symm h3_12, Ne.symm h4_12, Ne.symm h5_12, Ne.symm h6_12, Ne.symm h7_12, Ne.symm h8_12, Ne.symm h9_12, Ne.symm h10_12⟩
    · rw [h]
      exact ⟨Ne.symm h1_13, Ne.symm h2_13, Ne.symm h3_13, Ne.symm h4_13, Ne.symm h5_13, Ne.symm h6_13, Ne.symm h7_13, Ne.symm h8_13, Ne.symm h9_13, Ne.symm h10_13⟩
    · rw [h]
      exact ⟨Ne.symm h1_14, Ne.symm h2_14, Ne.symm h3_14, Ne.symm h4_14, Ne.symm h5_14, Ne.symm h6_14, Ne.symm h7_14, Ne.symm h8_14, Ne.symm h9_14, Ne.symm h10_14⟩
    · rw [h]
      exact ⟨Ne.symm h1_15, Ne.symm h2_15, Ne.symm h3_15, Ne.symm h4_15, Ne.symm h5_15, Ne.symm h6_15, Ne.symm h7_15, Ne.symm h8_15, Ne.symm h9_15, Ne.symm h10_15⟩
    · rw [h]
      exact ⟨Ne.symm h1_16, Ne.symm h2_16, Ne.symm h3_16, Ne.symm h4_16, Ne.symm h5_16, Ne.symm h6_16, Ne.symm h7_16, Ne.symm h8_16, Ne.symm h9_16, Ne.symm h10_16⟩

/-- Witness for C6 at the concrete enum assignment `E0`. -/
theorem lookup_oid_digest_info_witness :
    lookup_oid_digest_info E0 E0.sha256WithRSAEncryption =
      some ("sha256", 32, E0.sha256) ∧
    lookup_oid_digest_info E0 E0.sha256 = none := by
  have h := lookup_oid_digest_info_spec E0 (by decide)
  exact ⟨h.1.2.2.2.2.1, h.2.2 E0.sha256 (by decide)⟩

/-! ## Buffer contents on the Malformed path (C9)

The `bad:` path writes `"(bad)"` with the *advanced* buffer pointer and
the *remaining* capacity, so the buffer keeps the dotted-decimal prefix
already rendered.  The lemmas below identify that prefix exactly: the
varint groups consumed before the truncated arc, rendered as by the
successful path. -/

theorem readMore_takeGroup {l : List Nat} :
    ∀ acc x r, readMore acc l = some (x, r) →
    ∃ g, takeGroup l = some (g, r) := by
  induction l with
  | nil => intro acc x r h; simp [readMore] at h
  | cons m rest ih =>
    intro acc x r h
    simp only [readMore] at h
    simp only [takeGroup]
    split_ifs at h ⊢ with hc
    · simp only [Option.some.injEq, Prod.mk.injEq] at h
      exact ⟨[m], by rw [h.2]⟩
    · obtain ⟨g2, hg2⟩ := ih _ _ _ h
      rw [hg2]
      exact ⟨m :: g2, rfl⟩

/-- The converse bridge: a successful `readArc` consumes exactly one
complete varint group, and (on actual bytes) computes its value reduced
modulo `2 ^ 64`. -/
theorem readArc_takeGroup {l : List Nat} {x : Nat} {r : List Nat}
    (hb : ∀ b ∈ l, b < 256) (h : readArc l = some (x, r)) :
    ∃ g, takeGroup l = some (g, r) ∧ x = varVal g % U64 := by
  obtain ⟨g, hg⟩ : ∃ g, takeGroup l = some (g, r) := by
    cases l with
    | nil => simp [readArc] at h
    | cons n rest =>
      simp only [readArc] at h
      simp only [takeGroup]
      split_ifs at h ⊢ with hc
      · simp only [Option.some.injEq, Prod.mk.injEq] at h
        exact ⟨[n], by rw [h.2]⟩
      · obtain ⟨g2, hg2⟩ := readMore_takeGroup _ _ _ h
        rw [hg2]
        exact ⟨n :: g2, rfl⟩
  have h2 := takeGroup_readArc hb hg
  rw [h] at h2
  simp only [Option.some.injEq, Prod.mk.injEq] at h2
  exact ⟨g, hg, h2.1⟩

/-- A varint group re-parses in front of any continuation: groups are
self-delimiting. -/
theorem takeGroup_shape {l : List Nat} :
    ∀ g r, takeGroup l = some (g, r) →
    ∀ x : List Nat, takeGroup (g ++ x) = some (g, x) := by
  induction l with
  | nil => intro g r h; simp [takeGroup] at h
  | cons n rest ih =>
    intro g r h x
    simp only [takeGroup] at h
    split_ifs at h with hc
    · simp only [Option.some.injEq, Prod.mk.injEq] at h
      rw [← h.1]
      simp [takeGroup, hc]
    · rcases ht2 : takeGroup rest with _ | ⟨g2, r2⟩
      · rw [ht2] at h; simp at h
      · rw [ht2] at h
        simp only [Option.some.injEq, Prod.mk.injEq] at h
        rw [← h.1]
        have hx := ih g2 r2 ht2 x
        simp [takeGroup, hc, hx]

theorem splitArcs_nil (f : Nat) : splitArcs f [] = some [] := by
  cases f with
  | zero => rfl
  | succ f => rfl

/-- The fuel of `splitArcs` is irrelevant once it covers the input. -/
theorem splitArcs_fuel :
    ∀ f1 (l : List Nat) (f2 : Nat) (gs : List (List Nat)),
    l.length ≤ f1 → l.length ≤ f2 →
    splitArcs f1 l = some gs → splitArcs f2 l = some gs := by
  intro f1
  induction f1 with
  | zero =>
    intro l f2 gs h1 h2 h
    cases l with
    | nil =>
      rw [splitArcs_nil] at h
      rw [splitArcs_nil]
      exact h
    | cons n rest => simp at h1
  | succ f1 ih =>
    intro l f2 gs h1 h2 h
    cases l with
    | nil =>
      rw [splitArcs_nil] at h
      rw [splitArcs_nil]
      exact h
    | cons n rest =>
      cases f2 with
      | zero => simp at h2
      | succ f2 =>
        rcases ht : takeGroup (n :: rest) with _ | ⟨g, r⟩
        · simp [splitArcs, ht] at h
        · rcases hs2 : splitArcs f1 r with _ | gs2
          · simp [splitArcs, ht, hs2] at h
          · have hrlen : r.length < (n :: rest).length := by
              obtain ⟨happ, hgne⟩ := takeGroup_append _ _ ht
              rw [happ, List.length_append]
              have := List.length_pos.mpr hgne
              omega
            have hs2f : splitArcs f2 r = some gs2 :=
              ih r f2 gs2
                (by simp only [List.length_cons] at h1 hrlen; omega)
                (by simp only [List.length_cons] at h2 hrlen; omega)
                hs2
            simp only [splitArcs, ht, hs2, Option.some.injEq] at h
            simp only [splitArcs, ht, hs2f, Option.some.injEq]
            exact h

/-- Prepending a complete group to a splittable tail splits as that
group followed by the tail's groups. -/
theorem splitArcs_prepend {l g r x : List Nat} {gs : List (List Nat)}
    (ht : takeGroup l = some (g, r))
    (hs : splitArcs x.length x = some gs) :
    splitArcs (g ++ x).length (g ++ x) = some (g :: gs) := by
  obtain ⟨-, hgne⟩ := takeGroup_append _ _ ht
  have hshape := takeGroup_shape _ _ ht x
  cases g with
  | nil => exact absurd rfl hgne
  | cons gh gt =>
    simp only [List.cons_append] at hshape ⊢
    simp only [List.length_cons]
    have hs2 : splitArcs (gt ++ x).length x = some gs :=
      splitArcs_fuel x.length x (gt ++ x).length gs (le_refl _)
        (by rw [List.length_append]; omega) hs
    simp only [splitArcs, hshape, hs2]

theorem spLoop_badmsg_render :
    ∀ fuel (l : List Nat) (buf : List Char) (cap ret : Nat),
    (∀ b ∈ l, b < 256) → l.length ≤ fuel →
    (spLoop fuel l buf cap ret).1 = .error .badmsg →
    ∃ (done bad : List Nat) (gs : List (List Nat)),
      l = done ++ bad ∧ bad ≠ [] ∧ readArc bad = none ∧
      splitArcs done.length done = some gs ∧
      (spLoop fuel l buf cap ret).2 =
        truncWrite (buf ++ dotTail gs) (cap - (dotTail gs).length)
          badChars := by
  intro fuel
  induction fuel with
  | zero =>
    intro l buf cap ret hb hlen h
    cases l with
    | nil => simp [spLoop] at h
    | cons n rest => simp at hlen
  | succ fuel ih =>
    intro l buf cap ret hb hlen h
    cases l with
    | nil => simp [spLoop] at h
    | cons n rest =>
      rcases ha : readArc (n :: rest) with _ | ⟨num, rest2⟩
      · refine ⟨[], n :: rest, [], rfl, by simp, ha, rfl, ?_⟩
        simp [spLoop, ha, dotTail]
      · simp only [spLoop, ha] at h ⊢
        split_ifs at h ⊢ with hcap
        · simp at h
        · obtain ⟨g, hg, hnum⟩ := readArc_takeGroup hb ha
          obtain ⟨happ, hgne⟩ := takeGroup_append _ _ hg
          obtain ⟨done2, bad2, gs2, hsplit2, hbne2, hrd2, hsa2, hbuf2⟩ :=
            ih rest2 (buf ++ segStr num) (cap - (segStr num).length)
              (ret + (segStr num).length)
              (fun b hb2 => hb b
                (by rw [happ]; exact List.mem_append_right g hb2))
              (by have hr2 := readArc_length ha
                  simp only [List.length_cons] at hr2 hlen
                  omega)
              h
          refine ⟨g ++ done2, bad2, g :: gs2, ?_, hbne2, hrd2, ?_, ?_⟩
          · rw [happ, hsplit2, List.append_assoc]
          · exact splitArcs_prepend hg hsa2
          · rw [hbuf2, hnum]
            have hdt : dotTail (g :: gs2) =
                segStr (varVal g % U64) ++ dotTail gs2 := by
              simp [dotTail]
            rw [hdt, ← List.append_assoc, List.length_append, ← Nat.sub_sub]

/-- C9 (amended): the buffer on a `-EBADMSG` failure.  For the empty
input the buffer holds exactly `"(bad)"` truncated to the capacity.
For a non-empty input (of actual bytes, `< 256`) the bytes after the
first split into the complete varint groups that were rendered,
followed by a non-empty remainder that begins an unterminated varint,
and the buffer holds the rendered dotted-decimal prefix — the first
byte's two arcs and each group's value reduced modulo `2 ^ 64`, as on
the success path — followed by `"(bad)"` truncated to the remaining
capacity. -/
theorem sprint_oid_badmsg_buffer (bytes : List Nat) (cap : Nat) :
    (sprint_oid [] cap = (.error .badmsg, truncWrite [] cap badChars))
    ∧ (∀ n rest, bytes = n :: rest → (∀ b ∈ bytes, b < 256) →
        (sprint_oid bytes cap).1 = .error .badmsg →
        ∃ (done bad : List Nat) (gs : List (List Nat)),
          rest = done ++ bad ∧ bad ≠ [] ∧ readArc bad = none ∧
          splitArcs done.length done = some gs ∧
          (sprint_oid bytes cap).2 =
            truncWrite (segStr1 n ++ dotTail gs)
              (cap - (segStr1 n ++ dotTail gs).length) badChars) := by
  refine ⟨rfl, ?_⟩
  intro n rest hbytes hb h
  subst hbytes
  simp only [sprint_oid] at h ⊢
  split_ifs at h ⊢ with hcap
  · simp at h
  · obtain ⟨done, bad, gs, hsplit, hbne, hrd, hsa, hbuf⟩ :=
      spLoop_badmsg_render rest.length rest (segStr1 n)
        (cap - (segStr1 n).length) (segStr1 n).length
        (fun b hb2 => hb b (List.mem_cons_of_mem n hb2)) (le_refl _) h
    exact ⟨done, bad, gs, hsplit, hbne, hrd, hsa,
      by rw [hbuf, List.length_append, ← Nat.sub_sub]⟩

/-- C9 counterexample: on input `[0x2A, 0x80]` with capacity 10 the
Malformed failure leaves `"1.2(bad)"` in the buffer — the rendered
prefix followed by the placeholder — not the bare `"(bad)"` the claim
describes (the placeholder truncated to the whole capacity). -/
theorem sprint_oid_badbuf_counterexample :
    (sprint_oid [42, 128] 10).1 = .error .badmsg ∧
    (sprint_oid [42, 128] 10).2 = ['1', '.', '2', '(', 'b', 'a', 'd', ')'] ∧
    (sprint_oid [42, 128] 10).2 ≠ truncWrite [] 10 badChars := by
  refine ⟨rfl, rfl, by decide⟩

/-- Witness for the amended C9 at input `[0x2A, 0x80]`, capacity 10:
the rendered-prefix decomposition of the buffer, obtained from the
theorem with every hypothesis discharged concretely. -/
theorem sprint_oid_badmsg_buffer_witness :
    ∃ (done bad : List Nat) (gs : List (List Nat)),
      [128] = done ++ bad ∧ bad ≠ [] ∧ readArc bad = none ∧
      splitArcs done.length done = some gs ∧
      (sprint_oid [42, 128] 10).2 =
        truncWrite (segStr1 42 ++ dotTail gs)
          (10 - (segStr1 42 ++ dotTail gs).length) badChars :=
  (sprint_oid_badmsg_buffer [42, 128] 10).2 42 [128] rfl (by decide) rfl
